import Mathlib

/-!
Verification of the accel-math linear-algebra header (`include/accel/math.hpp`)
against its natural-language specification.

Scalars are modelled by `ℚ` (exact field semantics standing in for the
`float`/`double` instantiations of the C++ templates) except where a square
root or the constant π is required, in which case definitions are parametric
in the scalar type (and the square-root function or the π constant), and
theorems instantiate them at `ℝ`.

An `R×C` matrix `matrix<R, C, T>` (stored row-major as
`std::array<std::array<T, C>, R>`) is modelled as `Matrix (Fin R) (Fin C) ℚ`;
where the C++ performs raw index loops whose bounds may exceed the storage
(undefined behaviour), a second, list-based model executes the loop with
bounds-checked reads and writes in the `Option` monad.
-/

namespace AccelMath

/-- Index skipping for minor extraction: row/column indices below the deleted
index `r` are kept, the others are shifted up by one.  This is the "delete row
`r`" reindexing used by the specified `cofactor(row, column)` operation. -/
def skipIdx {n : ℕ} (r : Fin (n + 1)) (i : Fin n) : Fin (n + 1) :=
  if (i : ℕ) < (r : ℕ) then i.castSucc else i.succ

/-- Modelled from the spec: `matrix::cofactor(row, column)` is declared and
used only by the repository's tests; the header under `src/` does not define
it.  Per the spec it "returns the (N-1)×(N-1) minor matrix obtained by
deleting the given row and column". -/
def cofactorM {n : ℕ} (m : Matrix (Fin (n + 1)) (Fin (n + 1)) ℚ)
    (r c : Fin (n + 1)) : Matrix (Fin n) (Fin n) ℚ :=
  fun i j => m (skipIdx r i) (skipIdx c j)

/-- Modelled from the spec: `matrix::determinant()` is declared and used only
by the repository's tests; the header under `src/` does not define it.  Per
the spec: "for 1×1, the sole element; for N×N (N>1), recursive cofactor
expansion along the first row: Σ_j (-1)^j · m(0,j) · minor(0,j).determinant()". -/
def detM : (n : ℕ) → Matrix (Fin (n + 1)) (Fin (n + 1)) ℚ → ℚ
  | 0, m => m 0 0
  | n + 1, m => ∑ j : Fin (n + 2), (-1 : ℚ) ^ (j : ℕ) * m 0 j * detM n (cofactorM m 0 j)

/-- Modelled from the spec: `matrix::inverse()` is declared and used only by
the repository's tests; the header under `src/` does not define it.  Per the
spec: "build the matrix of signed cofactor-value determinants, transpose it
(adjugate), divide every entry by the determinant".  Entry `(i, j)` is thus
the signed cofactor value at `(j, i)` divided by the determinant.  The spec's
recursive determinant needs at least 1×1 minors, so the matrix is at least
2×2. -/
def inverseM {n : ℕ} (m : Matrix (Fin (n + 2)) (Fin (n + 2)) ℚ) :
    Matrix (Fin (n + 2)) (Fin (n + 2)) ℚ :=
  fun i j =>
    ((-1 : ℚ) ^ ((j : ℕ) + (i : ℕ)) * detM n (cofactorM m j i)) / detM (n + 1) m

/-- `matrix::identity()` (math.hpp, identity): a default-constructed (all-zero)
matrix whose diagonal entries are then set to `T(1)`. -/
def identityM (n : ℕ) : Matrix (Fin n) (Fin n) ℚ :=
  fun i j => if i = j then 1 else 0

/-- `matrix::operator*` (math.hpp, operator* between `matrix<R,C>` and
`matrix<C,N>`): the result entry `(row, column)` starts from the
default-constructed zero and accumulates
`result(row, column) += m_data[row][inner] * other(inner, column)` over
`inner = 0, …, C-1`. -/
def matMulM {R C N : ℕ} (a : Matrix (Fin R) (Fin C) ℚ)
    (b : Matrix (Fin C) (Fin N) ℚ) : Matrix (Fin R) (Fin N) ℚ :=
  fun i j => ∑ k : Fin C, a i k * b k j

/-- Concrete matrix literal: the row-major nested-list `l` read as an `R×C`
matrix (missing entries read as `0`).  Used to state the concrete scenarios of
the tests. -/
def matL (R C : ℕ) (l : List (List ℚ)) : Matrix (Fin R) (Fin C) ℚ :=
  fun i j => (l.getD (i : ℕ) []).getD (j : ℕ) 0

/-- `matrix::transposed()` (math.hpp, transposed) in the square case, where
its write loop `result.m_data[column][row] = m_data[row][column]` stays in
bounds: the result holds `m_data[row][column]` at position `(column, row)`.
(For non-square matrices the C++ loop indexes out of bounds; see
`transposedRun` for the bounds-checked execution of the same loop.) -/
def transposedSq {n : ℕ} (m : Matrix (Fin n) (Fin n) ℚ) :
    Matrix (Fin n) (Fin n) ℚ :=
  fun c r => m r c

/-- `vector::operator*(const matrix<Rows, Dimensions, T>&)` (math.hpp) in the
square case `Rows = Dimensions`, where the write loop
`result[row] = result[row] + (m_data[column] * matrix(row, column))` stays in
bounds: component `row` accumulates `Σ_column v[column] · m(row, column)` from
the zero-initialised result.  (For `Rows ≠ Dimensions` the C++ result length
stays `Dimensions`; see `vecMulMatRun` for the bounds-checked execution.) -/
def vecMulMatSq {n : ℕ} (v : Fin n → ℚ) (m : Matrix (Fin n) (Fin n) ℚ) :
    Fin n → ℚ :=
  fun i => ∑ j : Fin n, v j * m i j

/-- Bounds-checked read of entry `(i, j)` of a row-major nested-list grid,
modelling `m_data[i][j]` on `std::array<std::array<T, C>, R>` storage. -/
def getCell (g : List (List ℚ)) (i j : ℕ) : Option ℚ :=
  match g[i]? with
  | none => none
  | some row => row[j]?

/-- Bounds-checked write of entry `(i, j)` of a row-major nested-list grid;
`none` models the undefined behaviour of an out-of-bounds
`m_data[i][j] = x`. -/
def setCell (g : List (List ℚ)) (i j : ℕ) (x : ℚ) : Option (List (List ℚ)) :=
  match g[i]? with
  | none => none
  | some row => if j < row.length then some (g.set i (row.set j x)) else none

/-- `matrix::transposed()` (math.hpp, transposed), executed literally on
nested-list storage with bounds-checked writes: the result is a
default-constructed (all-zero) matrix of the declared return type
`matrix<Rows, Columns, T>` — the same shape `R×C` as the receiver — and the
loop performs `result.m_data[column][row] = m_data[row][column]` for
`row < R`, `column < C`.  `none` models an out-of-bounds write (undefined
behaviour in the C++). -/
def transposedRun (R C : ℕ) (m : List (List ℚ)) : Option (List (List ℚ)) :=
  (List.range R).foldlM
    (fun acc row =>
      (List.range C).foldlM
        (fun acc2 col =>
          match getCell m row col with
          | none => none
          | some x => setCell acc2 col row x)
        acc)
    (List.replicate R (List.replicate C 0))

/-- `vector::operator*(const matrix<Rows, Dimensions, T>&)` (math.hpp),
executed literally on list storage with bounds-checked access: `result` is a
default-constructed (all-zero) vector of the declared return type
`vector<Dimensions, T>` — the same length as the receiver — and the loop
performs `result[row] = result[row] + (m_data[column] * matrix(row, column))`
for `row < Rows`, `column < Dimensions`.  `none` models an out-of-bounds
access (undefined behaviour in the C++). -/
def vecMulMatRun (Rows : ℕ) (v : List ℚ) (m : List (List ℚ)) : Option (List ℚ) :=
  (List.range Rows).foldlM
    (fun acc row =>
      (List.range v.length).foldlM
        (fun acc2 col =>
          match acc2[row]?, v[col]?, getCell m row col with
          | some cur, some vc, some mval => some (acc2.set row (cur + vc * mval))
          | _, _, _ => none)
        acc)
    (List.replicate v.length 0)

/-- `vector::length_squared()` (math.hpp): the dot product of the vector with
itself, the fold `(... + (m_data[i] * other[i]))` with `other = m_data`. -/
def lengthSq {T : Type} [Field T] {n : ℕ} (v : Fin n → T) : T :=
  ∑ i : Fin n, v i * v i

/-- `vector::length()` (math.hpp): `std::sqrt(length_squared())`.  The C++ is
templated over the scalar type, so the square-root function of the scalar
type is a parameter; theorems instantiate `T := ℝ`, `sqrtFn := Real.sqrt`. -/
def lengthV {T : Type} [Field T] {n : ℕ} (sqrtFn : T → T) (v : Fin n → T) : T :=
  sqrtFn (lengthSq v)

/-- `vector::normalized()` (math.hpp): computes `value = length()`; if the
value equals zero it returns the default-constructed (all-zero) vector, else
it divides every component by the value. -/
def normalizedV {T : Type} [Field T] [DecidableEq T] {n : ℕ} (sqrtFn : T → T)
    (v : Fin n → T) : Fin n → T :=
  if lengthV sqrtFn v = 0 then fun _ => 0 else fun i => v i / lengthV sqrtFn v

/-- The two unit tags `details::radians_trait` / `details::degrees_trait`
(math.hpp) of the angle type. -/
inductive AngleUnit where
  | radians
  | degrees
deriving DecidableEq

/-- `std::fmod` on an exact ordered field: `x - p * trunc(x / p)` with
truncation toward zero — the defining identity of the C floating remainder.
Used by `angle::normalize()`. -/
def fmodF {T : Type} [LinearOrderedField T] [FloorRing T] (x p : T) : T :=
  x - p * (((if 0 ≤ x / p then ⌊x / p⌋ else ⌈x / p⌉) : ℤ) : T)

/-- `angle::normalize()` (math.hpp): reduces the stored value in place by the
floating remainder — radians: `std::fmod(m_angle, constants::two_pi<T>())`,
degrees: `std::fmod(m_angle, T(360))`, where `two_pi<T>() = pi<T>() * T(2)`.
`piT` is the scalar-type constant `constants::pi<T>()` (theorems instantiate
it with the real π). -/
def normalizeAngle {T : Type} [LinearOrderedField T] [FloorRing T]
    (piT : T) (unit : AngleUnit) (x : T) : T :=
  match unit with
  | .radians => fmodF x (piT * 2)
  | .degrees => fmodF x 360

/-- The cross-unit conversion constructor
`angle(const angle<T, OtherTraitT>&)` (math.hpp): an angle with the same unit
tag is copied unchanged; otherwise the value is multiplied exactly once by
`constants::deg_to_rad<T>() = pi<T>() / T(180)` when converting to radians,
or by `constants::rad_to_deg<T>() = T(180) / pi<T>()` when converting to
degrees. -/
def convertAngle {T : Type} [LinearOrderedField T] (piT : T)
    (src dst : AngleUnit) (x : T) : T :=
  if src = dst then x
  else
    match dst with
    | .radians => x * (piT / 180)
    | .degrees => x * (180 / piT)

/-- Aggregate initialisation of one length-`C` `std::array` row from a list
of constructor arguments: the leading arguments fill the row in order and any
remaining entries are value-initialised to zero.  The `vector<N, T>` variadic
constructor `vector(Ts... values)` (math.hpp) is exactly `buildRow N` applied
to its argument list. -/
def buildRow : (C : ℕ) → List ℚ → List ℚ
  | 0, _ => []
  | c + 1, [] => 0 :: buildRow c []
  | c + 1, x :: xs => x :: buildRow c xs

/-- The matrix variadic constructor `matrix(Ts ...values)` (math.hpp): the
argument list fills `m_data` (an `R`-row, `C`-column nested `std::array`) in
row-major order with brace elision — each row consumes the next `C`
arguments, and once the arguments are exhausted the remaining entries are
value-initialised to zero.  (A `static_assert` rejects more than `R·C`
arguments.) -/
def buildRows : (R : ℕ) → (C : ℕ) → List ℚ → List (List ℚ)
  | 0, _, _ => []
  | r + 1, C, l => buildRow C l :: buildRows r C (l.drop C)

/-! ### Bridge lemmas to the Mathlib matrix library -/

theorem skipIdx_eq_succAbove {n : ℕ} (r : Fin (n + 1)) (i : Fin n) :
    skipIdx r i = r.succAbove i := by
  simp [skipIdx, Fin.succAbove, Fin.lt_def]

theorem cofactorM_eq_submatrix {n : ℕ} (m : Matrix (Fin (n + 1)) (Fin (n + 1)) ℚ)
    (r c : Fin (n + 1)) :
    cofactorM m r c = m.submatrix r.succAbove c.succAbove := by
  funext i j
  simp [cofactorM, skipIdx_eq_succAbove]

theorem detM_eq_det : ∀ (n : ℕ) (m : Matrix (Fin (n + 1)) (Fin (n + 1)) ℚ),
    detM n m = m.det
  | 0, m => by
    show m 0 0 = m.det
    exact (Matrix.det_fin_one m).symm
  | n + 1, m => by
    show (∑ j : Fin (n + 2), (-1 : ℚ) ^ (j : ℕ) * m 0 j * detM n (cofactorM m 0 j)) = m.det
    rw [Matrix.det_succ_row_zero]
    refine Finset.sum_congr rfl fun j _ => ?_
    rw [detM_eq_det n, cofactorM_eq_submatrix, Fin.succAbove_zero]

theorem matMulM_eq_mul {R C N : ℕ} (a : Matrix (Fin R) (Fin C) ℚ)
    (b : Matrix (Fin C) (Fin N) ℚ) :
    matMulM a b = a * b := by
  funext i j
  simp only [matMulM, Matrix.mul_apply]

theorem identityM_eq_one (n : ℕ) : identityM n = (1 : Matrix (Fin n) (Fin n) ℚ) := by
  funext i j
  simp [identityM, Matrix.one_apply]

theorem inverseM_eq_smul_adjugate {n : ℕ}
    (m : Matrix (Fin (n + 2)) (Fin (n + 2)) ℚ) :
    inverseM m = (detM (n + 1) m)⁻¹ • m.adjugate := by
  funext i j
  simp only [inverseM, Matrix.smul_apply, smul_eq_mul]
  rw [Matrix.adjugate_fin_succ_eq_det_submatrix, cofactorM_eq_submatrix,
    detM_eq_det, div_eq_mul_inv]
  ring

/-! ### Helper lemmas for the floating remainder and aggregate initialisation -/

theorem fmodF_abs_lt {T : Type} [LinearOrderedField T] [FloorRing T]
    (x p : T) (hp : 0 < p) : |fmodF x p| < p := by
  have hx : p * (x / p) = x := by field_simp
  unfold fmodF
  by_cases h : 0 ≤ x / p
  · rw [if_pos h]
    have h1 : x - p * (⌊x / p⌋ : T) = p * (x / p - ⌊x / p⌋) := by rw [mul_sub, hx]
    have f0 : (0 : T) ≤ x / p - ⌊x / p⌋ := sub_nonneg.mpr (Int.floor_le _)
    have f1 : x / p - ⌊x / p⌋ < 1 := by
      have := Int.lt_floor_add_one (x / p)
      linarith
    rw [h1, abs_of_nonneg (mul_nonneg hp.le f0)]
    nlinarith
  · rw [if_neg h]
    have h1 : x - p * (⌈x / p⌉ : T) = p * (x / p - ⌈x / p⌉) := by rw [mul_sub, hx]
    have c0 : x / p - ⌈x / p⌉ ≤ 0 := sub_nonpos.mpr (Int.le_ceil _)
    have c1 : -1 < x / p - ⌈x / p⌉ := by
      have := Int.ceil_lt_add_one (x / p)
      linarith
    rw [h1, abs_lt]
    constructor <;> nlinarith

theorem fmodF_nonpos {T : Type} [LinearOrderedField T] [FloorRing T]
    (x p : T) (hp : 0 < p) (hx : x < 0) : fmodF x p ≤ 0 := by
  have hq : x / p < 0 := div_neg_of_neg_of_pos hx hp
  have hxx : p * (x / p) = x := by field_simp
  unfold fmodF
  rw [if_neg (not_le.mpr hq)]
  have h1 : x - p * (⌈x / p⌉ : T) = p * (x / p - ⌈x / p⌉) := by rw [mul_sub, hxx]
  have c0 : x / p - ⌈x / p⌉ ≤ 0 := sub_nonpos.mpr (Int.le_ceil _)
  rw [h1]
  nlinarith

theorem buildRow_getD : ∀ (C : ℕ) (l : List ℚ) (j : ℕ), j < C →
    (buildRow C l).getD j 0 = l.getD j 0
  | 0, _, j, h => absurd h (Nat.not_lt_zero j)
  | c + 1, [], 0, _ => rfl
  | c + 1, [], j + 1, h => by
    show (buildRow c []).getD j 0 = ([] : List ℚ).getD (j + 1) 0
    rw [buildRow_getD c [] j (Nat.lt_of_succ_lt_succ h)]
    rfl
  | c + 1, x :: xs, 0, _ => rfl
  | c + 1, x :: xs, j + 1, h => by
    show (buildRow c xs).getD j 0 = (x :: xs).getD (j + 1) 0
    rw [buildRow_getD c xs j (Nat.lt_of_succ_lt_succ h)]
    rfl

theorem buildRows_getD : ∀ (R C : ℕ) (l : List ℚ) (i : ℕ), i < R →
    (buildRows R C l).getD i [] = buildRow C (l.drop (i * C))
  | 0, _, _, i, h => absurd h (Nat.not_lt_zero i)
  | r + 1, C, l, 0, _ => by
    show buildRow C l = buildRow C (l.drop (0 * C))
    rw [Nat.zero_mul, List.drop_zero]
  | r + 1, C, l, i + 1, h => by
    show (buildRows r C (l.drop C)).getD i [] = buildRow C (l.drop ((i + 1) * C))
    rw [buildRows_getD r C (l.drop C) i (Nat.lt_of_succ_lt_succ h), List.drop_drop]
    rw [Nat.succ_mul, Nat.add_comm (i * C) C]

/-! ### Claim theorems -/

/-- C1: for every square matrix `m` (of size at least 2, where the spec's
recursive determinant defines the cofactor values) with non-zero determinant,
`m * m.inverse()` is exactly the identity matrix (in the exact-arithmetic
model standing in for "within floating tolerance"), where `inverse()` is the
adjugate/determinant method; in particular the inverse of the 3×3 matrix
`[[1,2,3],[0,1,4],[5,6,0]]` equals `[[-24,18,5],[20,-15,-4],[-5,4,1]]`. -/
theorem C1_mul_inverse_eq_identity :
    (∀ (n : ℕ) (m : Matrix (Fin (n + 2)) (Fin (n + 2)) ℚ),
      detM (n + 1) m ≠ 0 → matMulM m (inverseM m) = identityM (n + 2)) ∧
    inverseM (n := 1) (matL 3 3 [[1, 2, 3], [0, 1, 4], [5, 6, 0]])
      = matL 3 3 [[-24, 18, 5], [20, -15, -4], [-5, 4, 1]] := by
  constructor
  · intro n m h
    have hd : m.det ≠ 0 := by rwa [detM_eq_det] at h
    rw [matMulM_eq_mul, inverseM_eq_smul_adjugate, identityM_eq_one,
      Matrix.mul_smul, Matrix.mul_adjugate, detM_eq_det, smul_smul,
      inv_mul_cancel₀ hd, one_smul]
  · funext i j
    fin_cases i <;> fin_cases j <;>
      norm_num [inverseM, detM, cofactorM, skipIdx, matL, Fin.sum_univ_succ]

/-- Witness for C1: the test matrix `[[1,2,3],[0,1,4],[5,6,0]]` has non-zero
determinant, and multiplied by its inverse gives the identity. -/
theorem C1_mul_inverse_eq_identity_witness :
    detM 2 (matL 3 3 [[1, 2, 3], [0, 1, 4], [5, 6, 0]]) ≠ 0 ∧
    matMulM (matL 3 3 [[1, 2, 3], [0, 1, 4], [5, 6, 0]])
      (inverseM (n := 1) (matL 3 3 [[1, 2, 3], [0, 1, 4], [5, 6, 0]]))
      = identityM 3 := by
  have hd : detM 2 (matL 3 3 [[1, 2, 3], [0, 1, 4], [5, 6, 0]]) ≠ 0 := by
    norm_num [detM, cofactorM, skipIdx, matL, Fin.sum_univ_succ]
  exact ⟨hd, C1_mul_inverse_eq_identity.1 1 _ hd⟩

/-- C2: `determinant()` returns the sole element for a 1×1 matrix and the
first-row cofactor expansion `Σ_j (-1)^j · m(0,j) · minor(0,j).determinant()`
for larger square matrices; this agrees with the standard determinant, and on
the 2×2 minors of the test matrix `[[1,2,3],[4,5,6],[7,8,9]]` it yields the
test's expected values −3, −6, −3. -/
theorem C2_determinant_first_row_expansion :
    (∀ m : Matrix (Fin 1) (Fin 1) ℚ, detM 0 m = m 0 0) ∧
    (∀ (n : ℕ) (m : Matrix (Fin (n + 2)) (Fin (n + 2)) ℚ),
      detM (n + 1) m
        = ∑ j : Fin (n + 2), (-1 : ℚ) ^ (j : ℕ) * m 0 j * detM n (cofactorM m 0 j)) ∧
    (∀ (n : ℕ) (m : Matrix (Fin (n + 1)) (Fin (n + 1)) ℚ), detM n m = m.det) ∧
    detM 1 (matL 2 2 [[5, 6], [8, 9]]) = -3 ∧
    detM 1 (matL 2 2 [[2, 3], [8, 9]]) = -6 ∧
    detM 1 (matL 2 2 [[2, 3], [5, 6]]) = -3 := by
  refine ⟨fun m => rfl, fun n m => rfl, detM_eq_det, ?_, ?_, ?_⟩ <;>
    norm_num [detM, cofactorM, skipIdx, matL, Fin.sum_univ_succ]

/-- C3: `cofactor(r, c)` returns the minor submatrix of `m` obtained by
deleting row `r` and column `c` (a matrix, not the signed cofactor value):
entry `(i, j)` of the result is the entry of `m` at the `i`-th remaining row
index (`i` itself below `r`, else `i+1`) and the `j`-th remaining column
index, equivalently `m.submatrix r.succAbove c.succAbove`; on the test matrix
`[[1,2,3],[4,5,6],[7,8,9]]` the minors at `(0,0)`, `(1,0)`, `(2,0)` are
`[[5,6],[8,9]]`, `[[2,3],[8,9]]`, `[[2,3],[5,6]]`. -/
theorem C3_cofactor_returns_minor_submatrix :
    (∀ (n : ℕ) (m : Matrix (Fin (n + 1)) (Fin (n + 1)) ℚ) (r c : Fin (n + 1)),
      cofactorM m r c = m.submatrix r.succAbove c.succAbove) ∧
    (∀ (n : ℕ) (r : Fin (n + 1)) (i : Fin n),
      ((skipIdx r i : ℕ) = if (i : ℕ) < (r : ℕ) then (i : ℕ) else (i : ℕ) + 1) ∧
      skipIdx r i ≠ r) ∧
    cofactorM (matL 3 3 [[1, 2, 3], [4, 5, 6], [7, 8, 9]]) 0 0
      = matL 2 2 [[5, 6], [8, 9]] ∧
    cofactorM (matL 3 3 [[1, 2, 3], [4, 5, 6], [7, 8, 9]]) 1 0
      = matL 2 2 [[2, 3], [8, 9]] ∧
    cofactorM (matL 3 3 [[1, 2, 3], [4, 5, 6], [7, 8, 9]]) 2 0
      = matL 2 2 [[2, 3], [5, 6]] := by
  refine ⟨fun n m r c => cofactorM_eq_submatrix m r c, fun n r i => ⟨?_, ?_⟩, ?_, ?_, ?_⟩
  · by_cases h : (i : ℕ) < (r : ℕ) <;> simp [skipIdx, h]
  · rw [skipIdx_eq_succAbove]
    exact r.succAbove_ne i
  all_goals
    funext i j
    fin_cases i <;> fin_cases j <;> norm_num [cofactorM, skipIdx, matL]

/-- C4: `operator*` between an `R×C` and a `C×N` matrix produces the `R×N`
matrix with `result(i,j) = Σ_k lhs(i,k)·rhs(k,j)` — it coincides with the
standard matrix product — and the 3×2 by 2×3 literal matrices of the test
multiply to the stated 3×3 result. -/
theorem C4_matrix_mul_triple_loop :
    (∀ (R C N : ℕ) (a : Matrix (Fin R) (Fin C) ℚ) (b : Matrix (Fin C) (Fin N) ℚ)
      (i : Fin R) (j : Fin N), matMulM a b i j = ∑ k : Fin C, a i k * b k j) ∧
    (∀ (R C N : ℕ) (a : Matrix (Fin R) (Fin C) ℚ) (b : Matrix (Fin C) (Fin N) ℚ),
      matMulM a b = a * b) ∧
    matMulM (matL 3 2 [[1, 2], [3, 4], [5, 6]]) (matL 2 3 [[1, 2, 3], [4, 5, 6]])
      = matL 3 3 [[9, 12, 15], [19, 26, 33], [29, 40, 51]] := by
  refine ⟨fun R C N a b i j => rfl, fun R C N a b => matMulM_eq_mul a b, ?_⟩
  funext i j
  fin_cases i <;> fin_cases j <;> norm_num [matMulM, matL, Fin.sum_univ_succ]

/-- C5: the claim fails on the code for non-square matrices — `transposed()`
is declared to return `matrix<Rows, Columns, T>` (the receiver's own shape,
not `Columns×Rows`), and its write `result.m_data[column][row]` goes out of
bounds, which the bounds-checked execution of the loop reports as `none` on a
3×2 input.  On square matrices the loop is in bounds and the entry law
`result(c, r) = m(r, c)` and the transposition round-trip law hold, matching
the 3×3 test. -/
theorem C5_transposed_entry_law :
    transposedRun 3 2 [[1, 2], [3, 4], [5, 6]] = none ∧
    transposedRun 3 3 [[1, 2, 3], [4, 5, 6], [7, 8, 9]]
      = some [[1, 4, 7], [2, 5, 8], [3, 6, 9]] ∧
    (∀ (n : ℕ) (m : Matrix (Fin n) (Fin n) ℚ) (c r : Fin n),
      transposedSq m c r = m r c) ∧
    (∀ (n : ℕ) (m : Matrix (Fin n) (Fin n) ℚ), transposedSq m = m.transpose) ∧
    (∀ (n : ℕ) (m : Matrix (Fin n) (Fin n) ℚ), transposedSq (transposedSq m) = m) := by
  refine ⟨?_, ?_, fun n m c r => rfl, fun n m => rfl, fun n m => rfl⟩ <;>
    simp [transposedRun, getCell, setCell, List.range_succ]

set_option maxHeartbeats 1000000 in
/-- C6: the claim fails on the code for non-square matrices — the
vector-times-matrix product is declared to return `vector<Dimensions, T>`
(the receiver's own length `C`, not `R`), so a length-3 vector times a 2×3
matrix yields the length-3 vector `(14, 32, 0)` (tail left at its
zero-initialised value) instead of the claimed length-2 vector `(14, 32)`,
and for `R > C` the write `result[row]` goes out of bounds (`none` in the
bounds-checked execution).  In the square case each component `i` accumulates
`Σ_j v[j]·m(i,j)` — the matrix-vector product `m *ᵥ v` — matching the 3×3
test. -/
theorem C6_vector_times_matrix :
    vecMulMatRun 2 [1, 2, 3] [[1, 2, 3], [4, 5, 6]] = some [14, 32, 0] ∧
    vecMulMatRun 3 [1, 2, 3] [[1, 2, 3], [4, 5, 6], [7, 8, 9]]
      = some [14, 32, 50] ∧
    vecMulMatRun 3 [1, 2] [[1, 2], [3, 4], [5, 6]] = none ∧
    (∀ (n : ℕ) (v : Fin n → ℚ) (m : Matrix (Fin n) (Fin n) ℚ) (i : Fin n),
      vecMulMatSq v m i = ∑ j : Fin n, v j * m i j) ∧
    (∀ (n : ℕ) (v : Fin n → ℚ) (m : Matrix (Fin n) (Fin n) ℚ),
      vecMulMatSq v m = m.mulVec v) := by
  refine ⟨?_, ?_, ?_, fun n v m i => rfl, fun n v m => ?_⟩
  · norm_num [vecMulMatRun, getCell, List.range_succ, List.replicate_succ, List.set]
  · norm_num [vecMulMatRun, getCell, List.range_succ, List.replicate_succ, List.set]
  · norm_num [vecMulMatRun, getCell, List.range_succ, List.replicate_succ, List.set]
  · funext i
    simp [vecMulMatSq, Matrix.mulVec, Matrix.dotProduct, mul_comm]

/-- C7: for every vector `v`, if `v.length()` is exactly zero then
`v.normalized()` is the zero vector, and otherwise `v.normalized().length()`
equals 1 (exactly, in the real-number model standing in for "approximately"). -/
theorem C7_normalized_length (n : ℕ) (v : Fin n → ℝ) :
    (lengthV Real.sqrt v = 0 → normalizedV Real.sqrt v = fun _ => 0) ∧
    (lengthV Real.sqrt v ≠ 0 → lengthV Real.sqrt (normalizedV Real.sqrt v) = 1) := by
  constructor
  · intro h
    simp only [normalizedV, if_pos h]
  · intro h
    have hS : 0 ≤ lengthSq v := Finset.sum_nonneg fun i _ => mul_self_nonneg (v i)
    have hL2 : lengthV Real.sqrt v * lengthV Real.sqrt v = lengthSq v :=
      Real.mul_self_sqrt hS
    have hSne : lengthSq v ≠ 0 := by
      rw [← hL2]
      exact mul_ne_zero h h
    have hkey : lengthSq (fun i => v i / lengthV Real.sqrt v) = 1 := by
      have h1 : lengthSq (fun i => v i / lengthV Real.sqrt v)
          = lengthSq v / (lengthV Real.sqrt v * lengthV Real.sqrt v) := by
        simp only [lengthSq, div_mul_div_comm, ← Finset.sum_div]
      rw [h1, hL2, div_self hSne]
    show Real.sqrt (lengthSq (normalizedV Real.sqrt v)) = 1
    rw [normalizedV, if_neg h, hkey, Real.sqrt_one]

/-- Witness for C7: the zero vector normalises to the zero vector, and the
vector `(3, 4)` has non-zero length and normalises to a unit-length vector. -/
theorem C7_normalized_length_witness :
    (lengthV Real.sqrt ![(0 : ℝ), 0] = 0 ∧
      normalizedV Real.sqrt ![(0 : ℝ), 0] = fun _ => 0) ∧
    (lengthV Real.sqrt ![(3 : ℝ), 4] ≠ 0 ∧
      lengthV Real.sqrt (normalizedV Real.sqrt ![(3 : ℝ), 4]) = 1) := by
  have h0 : lengthV Real.sqrt ![(0 : ℝ), 0] = 0 := by
    show Real.sqrt (lengthSq ![(0 : ℝ), 0]) = 0
    rw [show lengthSq ![(0 : ℝ), 0] = 0 by norm_num [lengthSq, Fin.sum_univ_two],
      Real.sqrt_zero]
  have h34 : lengthV Real.sqrt ![(3 : ℝ), 4] = 5 := by
    show Real.sqrt (lengthSq ![(3 : ℝ), 4]) = 5
    rw [show lengthSq ![(3 : ℝ), 4] = 5 ^ 2 by norm_num [lengthSq, Fin.sum_univ_two],
      Real.sqrt_sq (by norm_num : (0 : ℝ) ≤ 5)]
  have hne : lengthV Real.sqrt ![(3 : ℝ), 4] ≠ 0 := by
    rw [h34]
    norm_num
  exact ⟨⟨h0, (C7_normalized_length 2 ![0, 0]).1 h0⟩,
    ⟨hne, (C7_normalized_length 2 ![3, 4]).2 hne⟩⟩

/-- C8: `normalize()` stores exactly the floating remainder `fmod` of the
original value by the period — `2π` for radians, `360` for degrees — so the
result's magnitude is strictly below the period, and a negative input stays
non-positive (`fmod` keeps the dividend's sign). -/
theorem C8_normalize_fmod (x : ℝ) :
    normalizeAngle Real.pi .radians x = fmodF x (2 * Real.pi) ∧
    |normalizeAngle Real.pi .radians x| < 2 * Real.pi ∧
    (x < 0 → normalizeAngle Real.pi .radians x ≤ 0) ∧
    normalizeAngle Real.pi .degrees x = fmodF x 360 ∧
    |normalizeAngle Real.pi .degrees x| < 360 ∧
    (x < 0 → normalizeAngle Real.pi .degrees x ≤ 0) := by
  have hper : normalizeAngle Real.pi .radians x = fmodF x (2 * Real.pi) := by
    show fmodF x (Real.pi * 2) = fmodF x (2 * Real.pi)
    rw [mul_comm]
  have h360 : (0 : ℝ) < 360 := by norm_num
  refine ⟨hper, ?_, ?_, rfl, fmodF_abs_lt x 360 h360, fun hx => fmodF_nonpos x 360 h360 hx⟩
  · rw [hper]
    exact fmodF_abs_lt x (2 * Real.pi) Real.two_pi_pos
  · intro hx
    rw [hper]
    exact fmodF_nonpos x (2 * Real.pi) Real.two_pi_pos hx

/-- Witness for C8: at the negative input −90, both unit variants keep the
sign (the normalized value is non-positive). -/
theorem C8_normalize_fmod_witness :
    ((-90 : ℝ) < 0) ∧
    normalizeAngle Real.pi .radians (-90) ≤ 0 ∧
    normalizeAngle Real.pi .degrees (-90) ≤ 0 :=
  ⟨by norm_num, (C8_normalize_fmod (-90)).2.2.1 (by norm_num),
    (C8_normalize_fmod (-90)).2.2.2.2.2 (by norm_num)⟩

/-- C9: the conversion constructor multiplies a degrees value by `π/180` to
produce radians and a radians value by `180/π` to produce degrees (same-unit
construction copies unchanged); in particular `degrees(180)` converted to
radians equals `radians::pi()`. -/
theorem C9_unit_conversion (x : ℝ) :
    convertAngle Real.pi .degrees .radians x = x * (Real.pi / 180) ∧
    convertAngle Real.pi .radians .degrees x = x * (180 / Real.pi) ∧
    convertAngle Real.pi .radians .radians x = x ∧
    convertAngle Real.pi .degrees .degrees x = x ∧
    convertAngle Real.pi .degrees .radians 180 = Real.pi := by
  refine ⟨rfl, rfl, rfl, rfl, ?_⟩
  show (180 : ℝ) * (Real.pi / 180) = Real.pi
  field_simp

/-- C10: the zero-argument vector and matrix constructors produce all-zero
values, and the matrix variadic constructor fills row-major and
zero-initialises every entry whose flat row-major index `i·C + j` lies beyond
the argument list. -/
theorem C10_constructor_zero_fill :
    (∀ (n j : ℕ), j < n → (buildRow n []).getD j 0 = 0) ∧
    (∀ (R C i j : ℕ), i < R → j < C →
      ((buildRows R C []).getD i []).getD j 0 = 0) ∧
    (∀ (R C : ℕ) (l : List ℚ) (i j : ℕ), i < R → j < C →
      ((buildRows R C l).getD i []).getD j 0 = l.getD (i * C + j) 0) ∧
    (∀ (R C : ℕ) (l : List ℚ) (i j : ℕ), i < R → j < C →
      l.length ≤ i * C + j → ((buildRows R C l).getD i []).getD j 0 = 0) := by
  have hmain : ∀ (R C : ℕ) (l : List ℚ) (i j : ℕ), i < R → j < C →
      ((buildRows R C l).getD i []).getD j 0 = l.getD (i * C + j) 0 := by
    intro R C l i j hi hj
    rw [buildRows_getD R C l i hi, buildRow_getD C _ j hj,
      List.getD_eq_getElem?_getD, List.getElem?_drop, ← List.getD_eq_getElem?_getD]
  refine ⟨?_, ?_, hmain, ?_⟩
  · intro n j hj
    rw [buildRow_getD n [] j hj]
    rfl
  · intro R C i j hi hj
    rw [hmain R C [] i j hi hj]
    rfl
  · intro R C l i j hi hj hlen
    rw [hmain R C l i j hi hj]
    exact List.getD_eq_default _ _ hlen

/-- Witness for C10: a 2×2 matrix constructed from the three arguments
`1, 2, 3` (fewer than 2·2 = 4) has entry `(1, 1)` — flat row-major index 3 —
zero-filled. -/
theorem C10_constructor_zero_fill_witness :
    (1 < 2 ∧ [(1 : ℚ), 2, 3].length ≤ 1 * 2 + 1) ∧
    ((buildRows 2 2 [(1 : ℚ), 2, 3]).getD 1 []).getD 1 0 = 0 :=
  ⟨⟨by norm_num, by norm_num⟩,
    C10_constructor_zero_fill.2.2.2 2 2 [(1 : ℚ), 2, 3] 1 1 (by norm_num)
      (by norm_num) (by norm_num)⟩

end AccelMath
